import Mathlib

/-!
Verification of the Sequence Generator and Statistical Test Battery of the
random-number statistical-distribution test repository.

The generator (`random_generator.py`) is embedded with its randomness sources
injected as explicit streams: `ints` models the underlying bounded-uniform
integer primitive (`random.randint` / `np.random.randint` consume it), `raws`
models the continuous samples drawn by `np.random.normal` / `exponential` /
`poisson` / `chisquare` before the clip-and-truncate step, `split` models the
`np.random.multinomial` draw of the Mixed variant, and `shuffle` models
`random.shuffle`.  Library primitives that raise on out-of-domain parameters
are embedded as `Except` values following their documented behaviour:
`random.randint(a, b)` raises when `b < a`; `np.random.*` raise when the size
argument is negative or when a scale/rate/df parameter is out of domain
(`scale < 0`, `lam < 0`, `df <= 0`).

The battery (`statistical_tests.py`) is embedded over an arbitrary linear
ordered field `K` (instantiated at `ℚ` for evaluation, at `ℝ` where a real
logarithm is needed).  The external scipy/numpy transcendental functions
(chi-square p-value, normal cdf, KS test, `np.log2`, `1.96/sqrt(n)`) are
bundled as an abstract parameter structure `SciPrims`; everything the
repository itself computes (binning, autocorrelation sums, gap lists, run
counting, entropy sums) is embedded concretely.
-/

namespace RandTest

/-! ## Embedding of `random_generator.py` -/

/-- Injected randomness sources: `ints` feeds the bounded-uniform integer
primitives, `raws i` is the stream of raw continuous samples used by the
`i`-th continuous sampler, `split` is the multinomial partition drawn by
`mixed_distribution`, and `shuffle` is the final `random.shuffle`. -/
structure RandSrc where
  ints : ℕ → ℕ
  raws : Fin 5 → ℕ → ℚ
  split : Fin 5 → ℕ
  shuffle : List ℤ → List ℤ

/-- `random.randint(a, b)`: uniform integer in `[a, b]`; raises `ValueError`
("empty range") when `b < a`.  The draw is modelled as `a + s % (b - a + 1)`
from the injected source value `s`. -/
def randint (a b : ℤ) (s : ℕ) : Except String ℤ :=
  if b < a then .error "empty range for randrange()"
  else .ok (a + (s : ℤ) % (b - a + 1))

/-- `RandomGenerator.simple_random(N, count)`:
`[random.randint(0, N-1) for _ in range(count)]`.  `range(count)` is empty for
`count ≤ 0`, so `randint` (and hence its range check) only runs when
`count ≥ 1`. -/
def simple_random (N count : ℤ) (src : RandSrc) : Except String (List ℤ) :=
  (List.range count.toNat).mapM fun i => randint 0 (N - 1) (src.ints i)

/-- `np.random.randint(0, N, count)`: raises on a negative size or when
`low >= high` (i.e. `N ≤ 0`); otherwise `count` uniform draws in `[0, N-1]`,
modelled as `s % N`. -/
def uniform_random (N count : ℤ) (src : RandSrc) : Except String (List ℤ) :=
  if count < 0 then .error "negative dimensions are not allowed"
  else if N ≤ 0 then .error "low >= high"
  else .ok ((List.range count.toNat).map fun i => (src.ints i : ℤ) % N)

/-- `np.clip(x, lo, hi)` = `np.minimum(np.maximum(x, lo), hi)` followed by
`astype(int)` (truncation toward zero; the clipped value is ≥ 0 here whenever
`lo = 0 ≤ hi`, where truncation and floor agree).  `Int.floor` is used; for
the `lo > hi` corner numpy also returns `hi`, matching `min (max x lo) hi`. -/
def clipTruncInt (x : ℚ) (lo hi : ℚ) : ℤ :=
  Int.floor (min (max x lo) hi)

/-- `RandomGenerator.normal_random(N, count)` with default parameters
`mean = N/2`, `std = N/6`: raw normal samples, clipped to `[0, N-1]` and
truncated.  `np.random.normal` raises when `scale < 0` or the size is
negative. -/
def normal_random (N count : ℤ) (raw : ℕ → ℚ) : Except String (List ℤ) :=
  if count < 0 then .error "negative dimensions are not allowed"
  else if (N : ℚ) / 6 < 0 then .error "scale < 0"
  else .ok ((List.range count.toNat).map fun i => clipTruncInt (raw i) 0 ((N : ℚ) - 1))

/-- `RandomGenerator.exponential_random(N, count)` with default
`scale = N/4`; `np.random.exponential` raises when `scale < 0`. -/
def exponential_random (N count : ℤ) (raw : ℕ → ℚ) : Except String (List ℤ) :=
  if count < 0 then .error "negative dimensions are not allowed"
  else if (N : ℚ) / 4 < 0 then .error "scale < 0"
  else .ok ((List.range count.toNat).map fun i => clipTruncInt (raw i) 0 ((N : ℚ) - 1))

/-- `RandomGenerator.poisson_random(N, count)` with default `lam = N/2`;
`np.random.poisson` raises when `lam < 0`. -/
def poisson_random (N count : ℤ) (raw : ℕ → ℚ) : Except String (List ℤ) :=
  if count < 0 then .error "negative dimensions are not allowed"
  else if (N : ℚ) / 2 < 0 then .error "lam < 0"
  else .ok ((List.range count.toNat).map fun i => clipTruncInt (raw i) 0 ((N : ℚ) - 1))

/-- Python `int(N/2)`: true division followed by truncation toward zero. -/
def pyHalf (N : ℤ) : ℤ :=
  if 0 ≤ N then ((N.toNat / 2 : ℕ) : ℤ) else -(((-N).toNat / 2 : ℕ) : ℤ)

/-- `RandomGenerator.chi_square_random(N, count)` with default
`df = int(N/2)`; `np.random.chisquare` raises `ValueError` when `df ≤ 0`
(in particular for `N = 1`, where `int(1/2) = 0`). -/
def chi_square_random (N count : ℤ) (raw : ℕ → ℚ) : Except String (List ℤ) :=
  if pyHalf N ≤ 0 then .error "df <= 0"
  else if count < 0 then .error "negative dimensions are not allowed"
  else .ok ((List.range count.toNat).map fun i => clipTruncInt (raw i) 0 ((N : ℚ) - 1))

/-- `RandomGenerator.mixed_distribution(N, count)` with the default weights
`[0.2, 0.2, 0.2, 0.2, 0.2]`: the multinomial split of `count` is the injected
`src.split` (np.random.multinomial guarantees the parts sum to `count`); the
five sub-sequences are generated, concatenated in order
uniform/normal/exponential/poisson/chi-square, and shuffled. -/
def mixed_distribution (N : ℤ) (src : RandSrc) : Except String (List ℤ) := do
  let l0 ← uniform_random N (src.split 0) src
  let l1 ← normal_random N (src.split 1) (src.raws 1)
  let l2 ← exponential_random N (src.split 2) (src.raws 2)
  let l3 ← poisson_random N (src.split 3) (src.raws 3)
  let l4 ← chi_square_random N (src.split 4) (src.raws 4)
  return src.shuffle (l0 ++ l1 ++ l2 ++ l3 ++ l4)

/-- The seven distribution variants. -/
inductive Distribution where
  | simpleModulo | uniform | normal | exponential | poisson | chiSquare | mixed
  deriving DecidableEq, Repr

/-- `generate(distribution, N, count)`: dispatch on the variant (the
repository dispatches by name; parameters take their `N`-derived defaults).
For `mixed` the count partition comes from `src.split`, so the `count`
argument to the sub-generators is the multinomial part. -/
def generate (d : Distribution) (N count : ℤ) (src : RandSrc) : Except String (List ℤ) :=
  match d with
  | .simpleModulo => simple_random N count src
  | .uniform => uniform_random N count src
  | .normal => normal_random N count (src.raws 0)
  | .exponential => exponential_random N count (src.raws 0)
  | .poisson => poisson_random N count (src.raws 0)
  | .chiSquare => chi_square_random N count (src.raws 0)
  | .mixed => mixed_distribution N src

/-- Total size of the multinomial split `np.random.multinomial(count, w)`:
the five parts always sum to the requested `count`. -/
def splitSum (src : RandSrc) : ℕ :=
  src.split 0 + src.split 1 + src.split 2 + src.split 3 + src.split 4

end RandTest

namespace RandTest

/-! ## Embedding of `statistical_tests.py` -/

variable (K : Type) [LinearOrderedField K]

/-- The external numeric library functions used by the battery, kept
abstract: `chi2P s d` is the p-value `1 - chi2.cdf(s, d)` returned by
`scipy.stats.chisquare`, `zP num rad` is the two-sided normal p-value
`2*(1 - norm.cdf(|num/sqrt(rad)|))` of the runs test, `ksP g m` is the
`(statistic, pvalue)` pair of `scipy.stats.kstest(g, 'expon', args=(0, m))`,
`confBand n` is `1.96/np.sqrt(n)`, and `log2` is `np.log2`. -/
structure SciPrims where
  chi2P : K → ℕ → K
  zP : K → K → K
  ksP : List K → K → K × K
  confBand : ℕ → K
  log2 : K → K

/-- The `StatisticalTester.__init__` state: declared range `N` and configured
`count`. -/
structure Tester where
  N : ℕ
  count : ℕ
  deriving DecidableEq, Repr

variable {K}

/-- One more than the largest element (`0` for the empty list): the length of
`np.bincount(xs)` before `minlength` padding. -/
def maxSucc (xs : List ℕ) : ℕ :=
  xs.foldr (fun x m => max (x + 1) m) 0

/-- `np.bincount(xs, minlength=m)`: entry `v` counts the occurrences of `v`;
the result has length `max m (max xs + 1)`. -/
def bincount (xs : List ℕ) (m : ℕ) : List ℕ :=
  (List.range (max m (maxSucc xs))).map fun v => xs.count v

/-- Result record of `test_uniformity` (keys 卡方统计量, p值, 结论;
`conclusion = true` means "服从均匀分布"). -/
structure UniformityRes (K : Type) where
  chi2 : K
  p : K
  conclusion : Bool
  deriving DecidableEq, Repr

/-- `StatisticalTester.test_uniformity`: observed counts via
`np.bincount(numbers, minlength=N)`, expected `np.ones(N)*count/N` (the
configured `self.count`, not the sequence length), Pearson statistic
`Σ (o-e)²/e` with p-value from the chi-square distribution with
`len(observed) - 1` degrees of freedom, verdict iff `p > 0.05`. -/
def test_uniformity (sp : SciPrims K) (t : Tester) (xs : List ℕ) : UniformityRes K :=
  let observed : List K := (bincount xs t.N).map (Nat.cast : ℕ → K)
  let expected : List K := List.replicate t.N ((t.count : K) / (t.N : K))
  let chi2 : K := ((observed.zip expected).map fun oe => (oe.1 - oe.2) ^ 2 / oe.2).sum
  let p := sp.chi2P chi2 (observed.length - 1)
  { chi2 := chi2, p := p, conclusion := decide (p > 1 / 20) }

/-- Raw (non-centred) autocorrelation
`np.correlate(x, x, 'full')[n-1:][k] = Σ_{i<n-k} x_i·x_{i+k}`. -/
def autocorrRaw (xs : List K) (k : ℕ) : K :=
  ((List.range (xs.length - k)).map fun i => xs.getD i 0 * xs.getD (i + k) 0).sum

/-- The normalised slice `acf = (autocorr/autocorr[0])[1:11]`: lags
`1..min 10 (n-1)`. -/
def acfList (xs : List K) : List K :=
  (List.range' 1 (min 10 (xs.length - 1))).map fun k =>
    autocorrRaw xs k / autocorrRaw xs 0

/-- Result record of `test_independence` (keys 最大自相关系数, 显著滞后值,
结论; `conclusion = true` means "序列独立"). -/
structure IndepRes (K : Type) where
  maxAcf : K
  sigLags : List ℕ
  conclusion : Bool
  deriving DecidableEq, Repr

/-- `StatisticalTester.test_independence`: raw autocorrelations normalised by
lag 0, sliced to lags 1..10, compared with the band `1.96/√n`.  When the
slice is empty (`n ≤ 1`) the `np.max` reduction raises `ValueError`
("zero-size array to reduction operation maximum which has no identity"),
which is embedded as the error case. -/
def test_independence (sp : SciPrims K) (xs : List ℕ) : Except String (IndepRes K) :=
  let nums : List K := xs.map (Nat.cast : ℕ → K)
  let acf := acfList nums
  let ci := sp.confBand xs.length
  match acf with
  | [] => .error "zero-size array to reduction operation maximum"
  | a :: rest =>
    .ok { maxAcf := rest.foldl (fun m v => max m |v|) |a|
          sigLags := ((acf.enum.filter fun p => decide (|p.2| > ci)).map fun p => p.1 + 1)
          conclusion := !(acf.any fun v => decide (|v| > ci)) }

/-- The gap accumulator of `test_gap_distribution`: walking the sequence with
the running index `i` and the dictionary `last` of last positions, appending
`i - last[num]` at each repeated value. -/
def gapsAux : List ℕ → ℕ → (ℕ → Option ℕ) → List ℕ
  | [], _, _ => []
  | x :: xs, i, last =>
    (match last x with
     | some p => [i - p]
     | none => []) ++ gapsAux xs (i + 1) (fun v => if v = x then some i else last v)

/-- The pooled gap list of the sequence (all gaps, in scan order). -/
def gaps (xs : List ℕ) : List ℕ :=
  gapsAux xs 0 fun _ => none

/-- The last-position dictionary after scanning a list from index `i`. -/
def lastMap : List ℕ → ℕ → (ℕ → Option ℕ) → ℕ → Option ℕ
  | [], _, last => last
  | x :: xs, i, last => lastMap xs (i + 1) fun v => if v = x then some i else last v

/-- Result record of `test_gap_distribution` (keys 平均间隔, 间隔标准差
(stored as its square `varGap`), KS统计量, p值, 结论). -/
structure GapRes (K : Type) where
  meanGap : K
  varGap : K
  ksStat : K
  p : K
  conclusion : Bool
  deriving DecidableEq, Repr

/-- `StatisticalTester.test_gap_distribution`: pool the gaps, fit an
exponential with scale `mean(gaps)` (the code computes
`1/lambda_est = 1/(1/mean)`), and KS-test the gaps against it.  With no gaps
`np.mean([])` is NaN and the subsequent `scipy.stats.kstest` on the empty
sample fails its internal reduction, embedded as the error case. -/
def test_gap_distribution (sp : SciPrims K) (xs : List ℕ) : Except String (GapRes K) :=
  let g := gaps xs
  match g with
  | [] => .error "invalid value in gap statistics"
  | _ :: _ =>
    let gk : List K := g.map (Nat.cast : ℕ → K)
    let n : K := (g.length : K)
    let mean := gk.sum / n
    let varGap := (gk.map fun x => (x - mean) ^ 2).sum / n
    let ks := sp.ksP gk mean
    .ok { meanGap := mean, varGap := varGap, ksStat := ks.1, p := ks.2
          conclusion := decide (ks.2 > 1 / 20) }

/-- Result record of `test_runs` (keys 实际游程数, 理论游程数, Z统计量
(represented by the pair of its numerator `runs - expected` and the variance
`varRadicand` under the square root), p值, 结论). -/
structure RunsRes (K : Type) where
  runs : ℕ
  expected : K
  varRadicand : K
  p : K
  conclusion : Bool
  deriving DecidableEq, Repr

/-- The boundary count of the runs loop: the number of positions `i ≥ 1` with
`numbers[i] ≠ numbers[i-1]`. -/
def countTransitions : List ℕ → ℕ
  | x :: y :: t => (if x ≠ y then 1 else 0) + countTransitions (y :: t)
  | _ => 0

/-- `StatisticalTester.test_runs`: run count `1 +` boundary count,
`n1 = np.sum(numbers == numbers[0])`, `n2` the rest,
`expected = 1 + 2n1n2/(n1+n2)`, variance
`2n1n2(2n1n2-n1-n2)/((n1+n2)²(n1+n2-1))`, two-sided normal p-value of
`(runs-expected)/std`.  On an empty array `numbers[0]` raises `IndexError`,
embedded as the error case. -/
def test_runs (sp : SciPrims K) (xs : List ℕ) : Except String (RunsRes K) :=
  match xs with
  | [] => .error "index 0 is out of bounds"
  | h :: _ =>
    let runs : ℕ := 1 + countTransitions xs
    let n1 : K := (xs.count h : K)
    let n2 : K := (xs.length : K) - n1
    let expected : K := 1 + 2 * n1 * n2 / (n1 + n2)
    let varRadicand : K :=
      2 * n1 * n2 * (2 * n1 * n2 - n1 - n2) / ((n1 + n2) ^ 2 * (n1 + n2 - 1))
    let p := sp.zP ((runs : K) - expected) varRadicand
    .ok { runs := runs, expected := expected, varRadicand := varRadicand, p := p
          conclusion := decide (p > 1 / 20) }

/-- Result record of `test_entropy` (keys 实际熵, 最大熵, 熵比率, 结论). -/
structure EntropyRes (K : Type) where
  entropy : K
  maxEntropy : K
  entOverMax : K
  conclusion : Bool
  deriving DecidableEq, Repr

/-- `StatisticalTester.test_entropy`: probabilities
`np.bincount(numbers, minlength=N)/len(numbers)`, entropy
`-Σ p·log2(p + 1e-10)`, maximum entropy `log2 N`, and their quotient. -/
def test_entropy (sp : SciPrims K) (t : Tester) (xs : List ℕ) : EntropyRes K :=
  let probs : List K := (bincount xs t.N).map fun c => (Nat.cast c : K) / (xs.length : K)
  let entropy : K := -((probs.map fun p => p * sp.log2 (p + 1 / 10 ^ 10)).sum)
  let maxEntropy := sp.log2 ((t.N : K))
  { entropy := entropy, maxEntropy := maxEntropy
    entOverMax := entropy / maxEntropy
    conclusion := decide (entropy / maxEntropy > 9 / 10) }

/-- One entry of the list returned by `run_all_tests`. -/
inductive TestRes (K : Type) where
  | uniformity (r : UniformityRes K)
  | independence (r : IndepRes K)
  | gap (r : GapRes K)
  | runs (r : RunsRes K)
  | entropy (r : EntropyRes K)
  deriving DecidableEq, Repr

/-- `StatisticalTester.run_all_tests`: the five tests in the fixed order
uniformity, independence, gap, runs, entropy; an exception in any test
propagates (there is no handler), aborting the battery. -/
def run_all_tests (sp : SciPrims K) (t : Tester) (xs : List ℕ) :
    Except String (List (TestRes K)) := do
  let u := test_uniformity sp t xs
  let i ← test_independence sp xs
  let g ← test_gap_distribution sp xs
  let r ← test_runs sp xs
  let e := test_entropy sp t xs
  return [.uniformity u, .independence i, .gap g, .runs r, .entropy e]

end RandTest

namespace RandTest

/-! ## State-passing form of the tester methods

Each `StatisticalTester` method receives `self` (fields `N`, `count`) and the
array `numbers`; the method bodies read both and assign to neither, so the
embedded state-passing form returns the tester state and the array exactly as
the source leaves them after the call. -/

variable {K : Type} [LinearOrderedField K]

/-- `self.test_uniformity(numbers)` with the post-call `self` and array. -/
def test_uniformity_st (sp : SciPrims K) (t : Tester) (xs : List ℕ) :
    UniformityRes K × Tester × List ℕ :=
  (test_uniformity sp t xs, t, xs)

/-- `self.test_independence(numbers)` with the post-call `self` and array. -/
def test_independence_st (sp : SciPrims K) (t : Tester) (xs : List ℕ) :
    Except String (IndepRes K) × Tester × List ℕ :=
  (test_independence sp xs, t, xs)

/-- `self.test_gap_distribution(numbers)` with the post-call `self` and array. -/
def test_gap_distribution_st (sp : SciPrims K) (t : Tester) (xs : List ℕ) :
    Except String (GapRes K) × Tester × List ℕ :=
  (test_gap_distribution sp xs, t, xs)

/-- `self.test_runs(numbers)` with the post-call `self` and array. -/
def test_runs_st (sp : SciPrims K) (t : Tester) (xs : List ℕ) :
    Except String (RunsRes K) × Tester × List ℕ :=
  (test_runs sp xs, t, xs)

/-- `self.test_entropy(numbers)` with the post-call `self` and array. -/
def test_entropy_st (sp : SciPrims K) (t : Tester) (xs : List ℕ) :
    EntropyRes K × Tester × List ℕ :=
  (test_entropy sp t xs, t, xs)

/-- `self.run_all_tests(numbers)` in state-passing form: the five method
calls in the fixed order, each receiving the tester state and array left by
the previous one. -/
def run_all_tests_st (sp : SciPrims K) (t : Tester) (xs : List ℕ) :
    Except String (List (TestRes K)) × Tester × List ℕ :=
  let (u, t1, xs1) := test_uniformity_st sp t xs
  let (i, t2, xs2) := test_independence_st sp t1 xs1
  let (g, t3, xs3) := test_gap_distribution_st sp t2 xs2
  let (r, t4, xs4) := test_runs_st sp t3 xs3
  let (e, t5, xs5) := test_entropy_st sp t4 xs4
  (do
    let i' ← i
    let g' ← g
    let r' ← r
    return [.uniformity u, .independence i', .gap g', .runs r', .entropy e],
   t5, xs5)

/-! ## Definitions written from the specification's words, for comparison -/

/-- Spec side, claim C4: the expected count per bin taken as
(length of the tested sequence)/N, one value per bin. -/
def specUniformityExpected (K : Type) [LinearOrderedField K] (N : ℕ) (xs : List ℕ) : List K :=
  List.replicate N ((xs.length : K) / (N : K))

/-- Spec side, claim C4: the chi-square statistic with expected counts
derived from the tested sequence's length. -/
def specUniformityChi2 (K : Type) [LinearOrderedField K] (N : ℕ) (xs : List ℕ) : K :=
  let e : K := (xs.length : K) / (N : K)
  ((List.range N).map fun v => ((xs.count v : K) - e) ^ 2 / e).sum

/-- The code-side expected vector of `test_uniformity`:
`np.ones(N) * self.count / self.N`. -/
def uniformityExpected (K : Type) [LinearOrderedField K] (t : Tester) : List K :=
  List.replicate t.N ((t.count : K) / (t.N : K))

/-- Spec side, claim C5: the mean-centred lag-`k` autocorrelation coefficient
(the autocovariance normalised by the variance). -/
def centeredAcf (xs : List ℚ) (k : ℕ) : ℚ :=
  let n := xs.length
  let mu := xs.sum / (n : ℚ)
  (((List.range (n - k)).map fun i => (xs.getD i 0 - mu) * (xs.getD (i + k) 0 - mu)).sum) /
    (((List.range n).map fun i => (xs.getD i 0 - mu) ^ 2).sum)

/-- Spec side, claim C6: extend the block decomposition by one element on
the left — join the head block when the values agree, else open a new one. -/
def runBlocksStep (x : ℕ) : List (List ℕ) → List (List ℕ)
  | [] => [[x]]
  | [] :: bs => [x] :: [] :: bs
  | (y :: ys) :: bs => if x = y then (x :: y :: ys) :: bs else [x] :: (y :: ys) :: bs

/-- Spec side, claim C6: the maximal blocks of consecutive equal values. -/
def runBlocks : List ℕ → List (List ℕ)
  | [] => []
  | x :: xs => runBlocksStep x (runBlocks xs)

/-- Spec side, claim C6: the Wald-Wolfowitz runs-test variance
`2·n1·n2·(2·n1·n2 - n1 - n2) / ((n1+n2)²·(n1+n2-1))`. -/
def wwVariance (K : Type) [LinearOrderedField K] (n1 n2 : K) : K :=
  2 * n1 * n2 * (2 * n1 * n2 - n1 - n2) / ((n1 + n2) ^ 2 * (n1 + n2 - 1))

/-- The perfectly periodic sequence of claim C8: the block `[0, …, N-1]`
repeated `k` times. -/
def periodicSeq (N k : ℕ) : List ℕ :=
  (List.replicate k (List.range N)).flatten

/-- A concrete all-zero instantiation of the abstract library primitives,
used to evaluate the battery at concrete inputs where the asserted fields do
not depend on them. -/
def qPrims : SciPrims ℚ :=
  { chi2P := fun _ _ => 0, zP := fun _ _ => 0, ksP := fun _ _ => (0, 0),
    confBand := fun _ => 1, log2 := fun q => q - 1 }

/-- A concrete randomness source: zero streams, a fixed multinomial split
summing to 3, and the identity shuffle. -/
def zeroSrc : RandSrc :=
  { ints := fun _ => 0, raws := fun _ _ => 0,
    split := fun i => if i = 0 then 2 else if i = 4 then 1 else 0,
    shuffle := id }

end RandTest

namespace RandTest

/-- The code's normalised lag-`k` autocorrelation coefficient
`autocorr[k] / autocorr[0]` of the sequence viewed in `K`. -/
def acfCoef (K : Type) [LinearOrderedField K] (xs : List ℕ) (k : ℕ) : K :=
  autocorrRaw (xs.map (Nat.cast : ℕ → K)) k / autocorrRaw (xs.map (Nat.cast : ℕ → K)) 0

/-- The lag indices the code actually examines: `1..min 10 (n-1)`. -/
def lagRange (n : ℕ) : List ℕ :=
  List.range' 1 (min 10 (n - 1))

end RandTest

namespace RandTest

variable {K : Type} [LinearOrderedField K]

/-! ## Helper lemmas -/

lemma mapM_ok_of_forall {α β : Type} (f : α → Except String β) (g : α → β) (l : List α)
    (h : ∀ a ∈ l, f a = .ok (g a)) : l.mapM f = .ok (l.map g) := by
  induction l with
  | nil => rfl
  | cons a l ih =>
    rw [List.mapM_cons, h a (by simp), ih fun b hb => h b (by simp [hb])]
    rfl

lemma mapM_error_head {α β : Type} (f : α → Except String β) (a : α) (l : List α)
    (e : String) (h : f a = .error e) : (a :: l).mapM f = .error e := by
  rw [List.mapM_cons, h]
  rfl

/-! ## Claim theorems -/

/-- C9: running the battery twice on the same fixed sequence yields identical
results: `run_all_tests` threads the tester state and the array through the
five method calls, returns both unchanged, and a second run from that state
produces the same result list. -/
theorem run_all_tests_idempotent (sp : SciPrims K) (t : Tester) (xs : List ℕ) :
    (run_all_tests_st sp (run_all_tests_st sp t xs).2.1 (run_all_tests_st sp t xs).2.2).1
        = (run_all_tests_st sp t xs).1 ∧
      (run_all_tests_st sp t xs).2.1 = t ∧ (run_all_tests_st sp t xs).2.2 = xs :=
  ⟨rfl, rfl, rfl⟩

/-- C10: the battery and each individual test leave the input sequence
unchanged: in the state-passing embedding (the method bodies contain no
assignment to the array) the sequence component of every post-state equals
the input sequence. -/
theorem battery_preserves_sequence (sp : SciPrims K) (t : Tester) (xs : List ℕ) :
    (run_all_tests_st sp t xs).2.2 = xs ∧
      (test_uniformity_st sp t xs).2.2 = xs ∧
      (test_independence_st sp t xs).2.2 = xs ∧
      (test_gap_distribution_st sp t xs).2.2 = xs ∧
      (test_runs_st sp t xs).2.2 = xs ∧
      (test_entropy_st sp t xs).2.2 = xs :=
  ⟨rfl, rfl, rfl, rfl, rfl, rfl⟩

/-- C3 (failing input): on the single-element sequence `[7]` the uniformity
test completes, but the independence test raises (`np.max` over the empty
slice `autocorr[1:11]` of a length-1 autocorrelation is a zero-size
reduction), so `run_all_tests` aborts instead of returning five results with
only the degenerate tests reporting undefined statistics. -/
theorem run_all_tests_aborts_on_singleton :
    run_all_tests qPrims ⟨10, 1⟩ [7] =
      .error "zero-size array to reduction operation maximum" := by
  rfl

end RandTest

namespace RandTest

lemma simple_random_characterisation (N count : ℤ) (src : RandSrc) :
    simple_random N count src =
      if 1 ≤ count ∧ N ≤ 0 then .error "empty range for randrange()"
      else .ok ((List.range count.toNat).map fun i => (src.ints i : ℤ) % N) := by
  unfold simple_random
  by_cases hN : N ≤ 0
  · by_cases hc : 1 ≤ count
    · rw [if_pos ⟨hc, hN⟩]
      have h1 : count.toNat = (count.toNat - 1) + 1 := by omega
      rw [h1, List.range_succ_eq_map]
      exact mapM_error_head _ _ _ _
        (by unfold randint; rw [if_pos (show N - 1 < 0 by omega)])
    · have h0 : count.toNat = 0 := by omega
      rw [if_neg fun h => hc h.1, h0]
      rfl
  · have hN1 : ¬ N - 1 < 0 := by omega
    rw [if_neg (by tauto)]
    refine mapM_ok_of_forall _ _ _ fun a _ => ?_
    simp [randint, hN1, show N - 1 - 0 + 1 = N by ring]

/-- C2 (counterexample): `count = -1` is structurally invalid, yet
`simple_random(5, -1)` does not raise — the comprehension over the empty
`range(-1)` returns the empty sequence. -/
theorem simple_random_negative_count_no_error :
    simple_random 5 (-1) zeroSrc = .ok [] ∧ (-1 : ℤ) < 0 :=
  ⟨rfl, by decide⟩

/-- C2 (amended): the generator performs no explicit input validation;
for SimpleModulo an error surfaces only from the underlying
`random.randint(0, N-1)` primitive, i.e. exactly when some draw happens
(`count ≥ 1`) over an empty range (`N ≤ 0`); in particular a negative
`count` yields the empty sequence without any error. -/
theorem simple_random_error_iff (N count : ℤ) (src : RandSrc) :
    ((simple_random N count src).isOk = false ↔ 1 ≤ count ∧ N ≤ 0) ∧
      (count < 0 → simple_random N count src = .ok []) := by
  rw [simple_random_characterisation]
  constructor
  · by_cases h : 1 ≤ count ∧ N ≤ 0 <;> simp [h, Except.isOk, Except.toBool]
  · intro hc
    rw [if_neg (by omega)]
    simp [show count.toNat = 0 by omega]

end RandTest

namespace RandTest

variable {K : Type} [LinearOrderedField K]

lemma maxSucc_le (xs : List ℕ) (N : ℕ) (h : ∀ x ∈ xs, x < N) : maxSucc xs ≤ N := by
  induction xs with
  | nil => exact Nat.zero_le N
  | cons a l ih =>
    simp only [maxSucc, List.foldr_cons]
    exact max_le (h a (by simp)) (ih fun x hx => h x (by simp [hx]))

lemma bincount_of_lt (xs : List ℕ) (N : ℕ) (h : ∀ x ∈ xs, x < N) :
    bincount xs N = (List.range N).map fun v => xs.count v := by
  unfold bincount
  rw [Nat.max_eq_left (maxSucc_le xs N h)]

lemma chi2_zip_replicate {α : Type} (f : α → K) (l : List α) (e : K) :
    ∀ n, l.length = n →
      (((l.map f).zip (List.replicate n e)).map fun oe => (oe.1 - oe.2) ^ 2 / oe.2).sum
        = (l.map fun v => (f v - e) ^ 2 / e).sum := by
  induction l with
  | nil =>
    intro n hn
    subst hn
    rfl
  | cons a l ih =>
    intro n hn
    subst hn
    simp only [List.map_cons, List.length_cons, List.replicate_succ, List.zip_cons_cons,
      List.sum_cons]
    rw [ih l.length rfl]

/-- C4 (counterexample): with declared `N = 2` and configured `count = 10`,
the sequence `[0, 1]` of length 2 gets expected bin counts `10/2 = 5` and a
chi-square statistic `32/5`, while the claim's expected counts
(length of the tested sequence)/N give `[1, 1]` and statistic `0`: the code
uses the configured `self.count`, not the tested sequence's length. -/
theorem uniformity_uses_configured_count :
    (test_uniformity qPrims ⟨2, 10⟩ [0, 1]).chi2 = 32 / 5 ∧
      specUniformityChi2 ℚ 2 [0, 1] = 0 ∧
      uniformityExpected ℚ ⟨2, 10⟩ ≠ specUniformityExpected ℚ 2 [0, 1] := by
  refine ⟨?_, ?_, ?_⟩
  · norm_num [test_uniformity, bincount, maxSucc, List.range_succ, List.count_cons,
      List.replicate_succ, List.zip_cons_cons]
  · norm_num [specUniformityChi2, List.range_succ, List.count_cons]
  · norm_num [uniformityExpected, specUniformityExpected, List.replicate]

/-- C4 (amended): for every sequence of integers in `[0, N)` whose length
equals the tester's configured `count`, the uniformity test bins by raw value
into the declared `N` categories, computes the chi-square statistic
`Σ (observed - length/N)²/(length/N)`, derives the p-value from the
chi-square distribution with `N - 1` degrees of freedom, and reports
"uniform" iff that p-value exceeds 0.05. -/
theorem test_uniformity_formula (sp : SciPrims K) (t : Tester) (xs : List ℕ)
    (hlen : xs.length = t.count) (hrange : ∀ x ∈ xs, x < t.N) :
    test_uniformity sp t xs =
      { chi2 := specUniformityChi2 K t.N xs
        p := sp.chi2P (specUniformityChi2 K t.N xs) (t.N - 1)
        conclusion := decide (sp.chi2P (specUniformityChi2 K t.N xs) (t.N - 1) > 1 / 20) } := by
  have hbc := bincount_of_lt xs t.N hrange
  have hchi :
      ((((bincount xs t.N).map (Nat.cast : ℕ → K)).zip
          (List.replicate t.N ((t.count : K) / (t.N : K)))).map
            fun oe => (oe.1 - oe.2) ^ 2 / oe.2).sum = specUniformityChi2 K t.N xs := by
    rw [hbc, List.map_map]
    rw [chi2_zip_replicate _ _ _ t.N (by simp)]
    unfold specUniformityChi2
    rw [← hlen]
    rfl
  have hdof : (((bincount xs t.N).map (Nat.cast : ℕ → K)).length - 1) = t.N - 1 := by
    simp [hbc]
  simp only [test_uniformity]
  rw [hchi, hdof]

/-- C4 (witness): the amended theorem applied to the tester `(N, count) =
(2, 2)` and the sequence `[0, 1]`. -/
theorem test_uniformity_formula_witness :
    ([0, 1] : List ℕ).length = (Tester.mk 2 2).count ∧
      (∀ x ∈ ([0, 1] : List ℕ), x < (Tester.mk 2 2).N) ∧
      test_uniformity qPrims ⟨2, 2⟩ [0, 1] =
        { chi2 := specUniformityChi2 ℚ 2 [0, 1]
          p := qPrims.chi2P (specUniformityChi2 ℚ 2 [0, 1]) 1
          conclusion := decide (qPrims.chi2P (specUniformityChi2 ℚ 2 [0, 1]) 1 > 1 / 20) } :=
  ⟨rfl, by decide, test_uniformity_formula qPrims ⟨2, 2⟩ [0, 1] rfl (by decide)⟩

end RandTest

namespace RandTest

variable {K : Type} [LinearOrderedField K]

lemma runBlocks_head (y : ℕ) (t : List ℕ) :
    ∃ ys bs, runBlocks (y :: t) = (y :: ys) :: bs := by
  induction t generalizing y with
  | nil => exact ⟨[], [], rfl⟩
  | cons z t ih =>
    obtain ⟨ys, bs, h⟩ := ih z
    rw [show runBlocks (y :: z :: t) = runBlocksStep y (runBlocks (z :: t)) from rfl, h]
    by_cases hyz : y = z
    · exact ⟨z :: ys, bs, by simp [runBlocksStep, hyz]⟩
    · exact ⟨[], (z :: ys) :: bs, by simp [runBlocksStep, hyz]⟩

lemma runBlocks_length (x : ℕ) (t : List ℕ) :
    (runBlocks (x :: t)).length = 1 + countTransitions (x :: t) := by
  induction t generalizing x with
  | nil => rfl
  | cons z t ih =>
    obtain ⟨ys, bs, h⟩ := runBlocks_head z t
    have hlen := ih z
    rw [h] at hlen
    rw [show runBlocks (x :: z :: t) = runBlocksStep x (runBlocks (z :: t)) from rfl, h,
      show countTransitions (x :: z :: t)
        = (if x ≠ z then 1 else 0) + countTransitions (z :: t) from rfl]
    simp only [List.length_cons] at hlen
    by_cases hxz : x = z
    · simp only [runBlocksStep, if_pos hxz, List.length_cons, if_neg (by omega : ¬x ≠ z)]
      omega
    · simp only [runBlocksStep, if_neg hxz, List.length_cons, if_pos hxz]
      omega

/-- C6: for every non-empty sequence the runs test reports the number of
maximal blocks of consecutive equal values as its run count, the expected
run count `1 + 2·n1·n2/(n1+n2)` with `n1` the occurrences of the first value
and `n2` the remainder, the Wald-Wolfowitz variance, a two-sided normal
p-value of the resulting Z-statistic, and the verdict "random" iff that
p-value exceeds 0.05. -/
theorem test_runs_formula (sp : SciPrims K) (a : ℕ) (l : List ℕ) :
    ∃ r, test_runs sp (a :: l) = .ok r ∧
      r.runs = (runBlocks (a :: l)).length ∧
      r.expected = 1 + 2 * ((a :: l).count a : K) * (((a :: l).length : K) - ((a :: l).count a : K))
          / (((a :: l).count a : K) + (((a :: l).length : K) - ((a :: l).count a : K))) ∧
      r.varRadicand = wwVariance K ((a :: l).count a : K)
          (((a :: l).length : K) - ((a :: l).count a : K)) ∧
      r.p = sp.zP ((r.runs : K) - r.expected) r.varRadicand ∧
      (r.conclusion = true ↔ r.p > 1 / 20) := by
  refine ⟨_, rfl, ?_, rfl, rfl, rfl, ?_⟩
  · exact (runBlocks_length a l).symm
  · simp

end RandTest

namespace RandTest

variable {K : Type} [LinearOrderedField K]

lemma countTransitions_replicate (k v : ℕ) : countTransitions (List.replicate k v) = 0 := by
  induction k with
  | zero => rfl
  | succ k ih =>
    cases k with
    | zero => rfl
    | succ m =>
      have hrep : List.replicate (m + 1 + 1) v = v :: v :: List.replicate m v := by
        simp [List.replicate_succ]
      rw [hrep,
        show countTransitions (v :: v :: List.replicate m v)
          = (if v ≠ v then 1 else 0) + countTransitions (v :: List.replicate m v) from rfl]
      have h1 : countTransitions (v :: List.replicate m v) = 0 := by
        have h2 := ih
        rwa [List.replicate_succ] at h2
      simp [h1]

lemma sum_map_range (f : ℕ → K) (n : ℕ) :
    ((List.range n).map f).sum = ∑ i ∈ Finset.range n, f i := by
  induction n with
  | zero => rfl
  | succ n ih =>
    rw [List.range_succ, List.map_append, List.sum_append, Finset.sum_range_succ, ih]
    simp

lemma bincount_replicate (N k v : ℕ) (hv : v < N) :
    bincount (List.replicate k v) N
      = (List.range N).map fun u => List.count u (List.replicate k v) := by
  exact bincount_of_lt _ _ fun x hx => by rw [List.eq_of_mem_replicate hx]; exact hv

lemma test_entropy_replicate (sp : SciPrims K) (N c k v : ℕ) (hv : v < N) (hk : 1 ≤ k) :
    test_entropy sp ⟨N, c⟩ (List.replicate k v) =
      { entropy := -sp.log2 (1 + 1 / 10 ^ 10)
        maxEntropy := sp.log2 (N : K)
        entOverMax := -sp.log2 (1 + 1 / 10 ^ 10) / sp.log2 (N : K)
        conclusion := decide (-sp.log2 (1 + 1 / 10 ^ 10) / sp.log2 (N : K) > 9 / 10) } := by
  have hk0 : ((k : K)) ≠ 0 := Nat.cast_ne_zero.mpr (by omega)
  have hsum :
      (List.map (fun p => p * sp.log2 (p + 1 / 10 ^ 10))
          (List.map (fun c' => (Nat.cast c' : K) / ((k : ℕ) : K))
            (bincount (List.replicate k v) N))).sum
        = sp.log2 (1 + 1 / 10 ^ 10) := by
    rw [bincount_replicate N k v hv, List.map_map, List.map_map, sum_map_range]
    rw [Finset.sum_eq_single v]
    · simp only [Function.comp_apply, List.count_replicate, beq_self_eq_true, if_true]
      rw [div_self hk0, one_mul]
    · intro b _ hb
      have hb' : ¬v = b := fun h => hb h.symm
      simp [List.count_replicate, hb, hb']
    · intro hv'
      exact absurd (Finset.mem_range.mpr hv) hv'
  simp only [test_entropy, List.length_replicate]
  rw [hsum]

/-- C7 (counterexample): for the constant sequence `[1, 1, 1]` with declared
`N = 2` the entropy test does not report entropy 0: the smoothing constant
makes the only nonzero term `1·log2(1 + 1e-10)`, so the reported entropy is
`-log2(1 + 1e-10) < 0`. -/
theorem entropy_constant_not_zero :
    (test_entropy (K := ℝ)
        ⟨fun _ _ => 0, fun _ _ => 0, fun _ _ => (0, 0), fun _ => 0, fun x => Real.logb 2 x⟩
        ⟨2, 3⟩ (List.replicate 3 1)).entropy ≠ 0 := by
  rw [test_entropy_replicate _ 2 3 3 1 (by norm_num) (by norm_num)]
  have hpos : (0 : ℝ) < Real.logb 2 (1 + 1 / 10 ^ 10) :=
    Real.logb_pos (by norm_num) (by norm_num)
  simpa using ne_of_lt (neg_neg_of_pos hpos)

/-- C7 (amended): for every constant sequence (`k ≥ 1` copies of a value
`v < N`) the runs test reports exactly 1 run, and the entropy test reports
entropy `-log2(1 + 1e-10)` — a negative value of magnitude ≈ 1.44·10⁻¹⁰,
not exactly 0 — with ratio `-log2(1 + 1e-10)/log2 N`. -/
theorem runs_entropy_constant_sequence (sp : SciPrims K) (N c k v : ℕ)
    (hv : v < N) (hk : 1 ≤ k) :
    (∃ r, test_runs sp (List.replicate k v) = .ok r ∧ r.runs = 1) ∧
      (test_entropy sp ⟨N, c⟩ (List.replicate k v)).entropy = -sp.log2 (1 + 1 / 10 ^ 10) ∧
      (test_entropy sp ⟨N, c⟩ (List.replicate k v)).entOverMax
        = -sp.log2 (1 + 1 / 10 ^ 10) / sp.log2 (N : K) := by
  refine ⟨?_, ?_, ?_⟩
  · obtain ⟨m, rfl⟩ : ∃ m, k = m + 1 := ⟨k - 1, by omega⟩
    rw [List.replicate_succ]
    refine ⟨_, rfl, ?_⟩
    show 1 + countTransitions (v :: List.replicate m v) = 1
    rw [← List.replicate_succ, countTransitions_replicate]
  · rw [test_entropy_replicate sp N c k v hv hk]
  · rw [test_entropy_replicate sp N c k v hv hk]

/-- C7 (witness): the amended theorem at `N = 2`, `count = 1`, the sequence
`[1, 1, 1]`. -/
theorem runs_entropy_constant_sequence_witness :
    (1 : ℕ) < 2 ∧ (1 : ℕ) ≤ 3 ∧
      ((∃ r, test_runs qPrims (List.replicate 3 1) = .ok r ∧ r.runs = 1) ∧
        (test_entropy qPrims ⟨2, 1⟩ (List.replicate 3 1)).entropy
            = -qPrims.log2 (1 + 1 / 10 ^ 10) ∧
        (test_entropy qPrims ⟨2, 1⟩ (List.replicate 3 1)).entOverMax
            = -qPrims.log2 (1 + 1 / 10 ^ 10) / qPrims.log2 ((2 : ℕ) : ℚ)) :=
  ⟨by decide, by decide, runs_entropy_constant_sequence qPrims 2 1 3 1 (by decide) (by decide)⟩

end RandTest

namespace RandTest

variable {K : Type} [LinearOrderedField K]

lemma acfList_eq (xs : List ℕ) :
    acfList (xs.map (Nat.cast : ℕ → K)) = (lagRange xs.length).map fun k => acfCoef K xs k := by
  unfold acfList lagRange acfCoef
  rw [List.length_map]

lemma foldl_max_le_of_mem (l : List K) :
    ∀ a : K, a ≤ l.foldl max a ∧ ∀ x ∈ l, x ≤ l.foldl max a := by
  induction l with
  | nil =>
    intro a
    exact ⟨le_refl a, by simp⟩
  | cons b l ih =>
    intro a
    obtain ⟨h1, h2⟩ := ih (max a b)
    refine ⟨le_trans (le_max_left a b) h1, ?_⟩
    intro x hx
    rcases List.mem_cons.mp hx with rfl | hx
    · exact le_trans (le_max_right a x) h1
    · exact h2 x hx

lemma foldl_max_mem (l : List K) : ∀ a : K, l.foldl max a = a ∨ l.foldl max a ∈ l := by
  induction l with
  | nil =>
    intro a
    left
    rfl
  | cons b l ih =>
    intro a
    rcases ih (max a b) with h | h
    · rcases max_choice a b with h' | h'
      · left
        rw [List.foldl_cons, h, h']
      · right
        rw [List.foldl_cons, h, h']
        exact List.mem_cons_self b l
    · right
      exact List.mem_cons_of_mem b h

lemma enumFrom_filter_map_succ (f : ℕ → K) (q : K → Bool) :
    ∀ m j : ℕ,
      ((((List.range' (j + 1) m).map f).enumFrom j).filter fun p => q p.2).map
          (fun p => p.1 + 1)
        = (List.range' (j + 1) m).filter fun k => q (f k) := by
  intro m
  induction m with
  | zero =>
    intro j
    rfl
  | succ m ih =>
    intro j
    rw [show List.range' (j + 1) (m + 1) = (j + 1) :: List.range' (j + 1 + 1) m from rfl,
      List.map_cons,
      show ((f (j + 1) :: (List.range' (j + 1 + 1) m).map f).enumFrom j)
        = (j, f (j + 1)) :: ((List.range' (j + 1 + 1) m).map f).enumFrom (j + 1) from rfl]
    by_cases hq : q (f (j + 1)) = true
    · rw [List.filter_cons_of_pos (by simpa using hq), List.map_cons,
        List.filter_cons_of_pos (by simpa using hq), ih (j + 1)]
    · rw [List.filter_cons_of_neg (by simpa using hq),
        List.filter_cons_of_neg (by simpa using hq), ih (j + 1)]

lemma enum_filter_map_succ (f : ℕ → K) (q : K → Bool) (m : ℕ) :
    ((((List.range' 1 m).map f).enum).filter fun p => q p.2).map (fun p => p.1 + 1)
      = (List.range' 1 m).filter fun k => q (f k) := by
  have h := enumFrom_filter_map_succ f q m 0
  simpa [List.enum] using h

end RandTest

namespace RandTest

variable {K : Type} [LinearOrderedField K]

/-- C5 (amended): for every sequence of length ≥ 2, the independence test
computes the raw (non-centred) autocorrelation coefficients
`Σᵢ xᵢxᵢ₊ₖ / Σᵢ xᵢ²` for the lags `1..min 10 (count-1)` actually present in
the slice `autocorr[1:11]`, reports their maximum absolute value and the
list of those lags whose absolute coefficient exceeds `1.96/√count`, and
reports "independent" iff no examined lag exceeds that band. -/
theorem test_independence_formula (sp : SciPrims K) (xs : List ℕ) (h2 : 2 ≤ xs.length) :
    ∃ r, test_independence sp xs = .ok r ∧
      (∀ k ∈ lagRange xs.length, |acfCoef K xs k| ≤ r.maxAcf) ∧
      r.maxAcf ∈ (lagRange xs.length).map (fun k => |acfCoef K xs k|) ∧
      r.sigLags = (lagRange xs.length).filter
        (fun k => decide (|acfCoef K xs k| > sp.confBand xs.length)) ∧
      (r.conclusion = true ↔
        ∀ k ∈ lagRange xs.length, |acfCoef K xs k| ≤ sp.confBand xs.length) := by
  obtain ⟨m, hm⟩ : ∃ m, min 10 (xs.length - 1) = m + 1 :=
    ⟨min 10 (xs.length - 1) - 1, by omega⟩
  have hlag : lagRange xs.length = List.range' 1 (m + 1) := by
    unfold lagRange
    rw [hm]
  have hacf : acfList (xs.map (Nat.cast : ℕ → K))
      = acfCoef K xs 1 :: (List.range' (1 + 1) m).map fun k => acfCoef K xs k := by
    rw [acfList_eq, hlag,
      show List.range' 1 (m + 1) = 1 :: List.range' (1 + 1) m from rfl, List.map_cons]
  have hcons : (1 : ℕ) :: List.range' (1 + 1) m = List.range' 1 (m + 1) := rfl
  simp only [test_independence]
  rw [hacf]
  refine ⟨_, rfl, ?_, ?_, ?_, ?_⟩
  · intro k hk
    show |acfCoef K xs k| ≤
      ((List.range' (1 + 1) m).map fun k' => acfCoef K xs k').foldl
        (fun mx v => max mx |v|) |acfCoef K xs 1|
    rw [← List.foldl_map (fun v : K => |v|) max]
    obtain ⟨h1, h2⟩ :=
      foldl_max_le_of_mem ((((List.range' (1 + 1) m).map fun k' => acfCoef K xs k').map
        fun v : K => |v|)) |acfCoef K xs 1|
    rw [hlag] at hk
    rw [show List.range' 1 (m + 1) = 1 :: List.range' (1 + 1) m from rfl] at hk
    rcases List.mem_cons.mp hk with rfl | hk
    · exact h1
    · exact h2 _ (List.mem_map_of_mem _ (List.mem_map_of_mem _ hk))
  · show (((List.range' (1 + 1) m).map fun k' => acfCoef K xs k').foldl
        (fun mx v => max mx |v|) |acfCoef K xs 1|)
      ∈ (lagRange xs.length).map fun k => |acfCoef K xs k|
    rw [← List.foldl_map (fun v : K => |v|) max, hlag,
      show List.range' 1 (m + 1) = 1 :: List.range' (1 + 1) m from rfl, List.map_cons]
    rcases foldl_max_mem ((((List.range' (1 + 1) m).map fun k' => acfCoef K xs k').map
        fun v : K => |v|)) |acfCoef K xs 1| with h | h
    · rw [h]
      exact List.mem_cons_self _ _
    · exact List.mem_cons_of_mem _ (by simpa [List.map_map, Function.comp] using h)
  · show ((((acfCoef K xs 1 :: (List.range' (1 + 1) m).map fun k => acfCoef K xs k).enum).filter
        fun p => decide (|p.2| > sp.confBand xs.length)).map fun p => p.1 + 1)
      = (lagRange xs.length).filter
        fun k => decide (|acfCoef K xs k| > sp.confBand xs.length)
    rw [show (acfCoef K xs 1 :: (List.range' (1 + 1) m).map fun k => acfCoef K xs k)
        = (List.range' 1 (m + 1)).map fun k => acfCoef K xs k from rfl, hlag]
    exact enum_filter_map_succ (fun k => acfCoef K xs k)
      (fun x => decide (|x| > sp.confBand xs.length)) (m + 1)
  · show (!((acfCoef K xs 1 :: (List.range' (1 + 1) m).map fun k => acfCoef K xs k).any
        fun v => decide (|v| > sp.confBand xs.length))) = true ↔
      ∀ k ∈ lagRange xs.length, |acfCoef K xs k| ≤ sp.confBand xs.length
    rw [show (acfCoef K xs 1 :: (List.range' (1 + 1) m).map fun k => acfCoef K xs k)
        = (lagRange xs.length).map fun k => acfCoef K xs k from by rw [hlag]; rfl]
    constructor
    · intro h k hk
      by_contra hgt
      have hany : (((lagRange xs.length).map fun k => acfCoef K xs k).any
          fun v => decide (|v| > sp.confBand xs.length)) = true :=
        List.any_eq_true.mpr
          ⟨acfCoef K xs k, List.mem_map_of_mem _ hk, by simpa using not_le.mp hgt⟩
      rw [hany] at h
      exact absurd h (by simp)
    · intro h
      have hany : (((lagRange xs.length).map fun k => acfCoef K xs k).any
          fun v => decide (|v| > sp.confBand xs.length)) = false := by
        by_contra hne
        obtain ⟨v, hv, hgt⟩ := List.any_eq_true.mp (Bool.of_not_eq_false hne)
        obtain ⟨k, hk, rfl⟩ := List.mem_map.mp hv
        exact absurd (h k hk) (not_le.mpr (by simpa using hgt))
      rw [hany]
      rfl

end RandTest

namespace RandTest

/-- C5 (counterexample): on the sequence `[0, 1]` the code reports a maximum
absolute autocorrelation coefficient of `0` (raw normalisation
`Σ xᵢxᵢ₊₁ / Σ xᵢ² = 0/1`), whereas the variance-normalised (mean-centred)
lag-1 autocorrelation coefficient of `[0, 1]` is `-1/2`: the lag-0 raw
autocorrelation the code divides by is not the variance. -/
theorem independence_not_variance_normalised :
    (test_independence qPrims [0, 1]).map (fun r => r.maxAcf) = .ok 0 ∧
      centeredAcf [0, 1] 1 = -(1 / 2) := by
  constructor
  · norm_num [test_independence, acfList, autocorrRaw, qPrims, List.range',
      List.enum, List.enumFrom, List.getD,
      show List.range 1 = [0] from rfl, show List.range 2 = [0, 1] from rfl,
      List.getElem?_cons_zero, List.getElem?_cons_succ, Except.map]
  · norm_num [centeredAcf, List.getD,
      show List.range 1 = [0] from rfl, show List.range 2 = [0, 1] from rfl,
      List.getElem?_cons_zero, List.getElem?_cons_succ]

/-- C5 (witness): the amended theorem at the sequence `[0, 1]`. -/
theorem test_independence_formula_witness :
    2 ≤ ([0, 1] : List ℕ).length ∧
      ∃ r, test_independence qPrims [0, 1] = .ok r ∧
        (∀ k ∈ lagRange ([0, 1] : List ℕ).length, |acfCoef ℚ [0, 1] k| ≤ r.maxAcf) ∧
        r.maxAcf ∈ (lagRange ([0, 1] : List ℕ).length).map (fun k => |acfCoef ℚ [0, 1] k|) ∧
        r.sigLags = (lagRange ([0, 1] : List ℕ).length).filter
          (fun k => decide (|acfCoef ℚ [0, 1] k| > qPrims.confBand ([0, 1] : List ℕ).length)) ∧
        (r.conclusion = true ↔
          ∀ k ∈ lagRange ([0, 1] : List ℕ).length,
            |acfCoef ℚ [0, 1] k| ≤ qPrims.confBand ([0, 1] : List ℕ).length) :=
  ⟨by decide, test_independence_formula qPrims [0, 1] (by decide)⟩

end RandTest

namespace RandTest

lemma gapsAux_append (l₁ l₂ : List ℕ) :
    ∀ (i : ℕ) (last : ℕ → Option ℕ),
      gapsAux (l₁ ++ l₂) i last
        = gapsAux l₁ i last ++ gapsAux l₂ (i + l₁.length) (lastMap l₁ i last) := by
  induction l₁ with
  | nil =>
    intro i last
    simp [gapsAux, lastMap]
  | cons x t ih =>
    intro i last
    show ((match last x with | some p => [i - p] | none => []) ++
        gapsAux (t ++ l₂) (i + 1) fun v => if v = x then some i else last v)
      = ((match last x with | some p => [i - p] | none => []) ++
          gapsAux t (i + 1) fun v => if v = x then some i else last v) ++
        gapsAux l₂ (i + (x :: t).length) (lastMap t (i + 1) fun v => if v = x then some i else last v)
    rw [ih (i + 1), List.append_assoc]
    have harith : i + 1 + t.length = i + (x :: t).length := by
      simp only [List.length_cons]
      omega
    rw [harith]

lemma gapsAux_block (N i0 : ℕ) (hN : N ≤ i0) :
    ∀ (m j : ℕ), j + m = N →
      ∀ last : ℕ → Option ℕ, (∀ v, j ≤ v → v < N → last v = some (i0 + v - N)) →
        gapsAux (List.range' j m) (i0 + j) last = List.replicate m N := by
  intro m
  induction m with
  | zero =>
    intro j hj last hlast
    rfl
  | succ m ih =>
    intro j hj last hlast
    rw [show List.range' j (m + 1) = j :: List.range' (j + 1) m from rfl]
    show (match last j with | some p => [i0 + j - p] | none => []) ++
        gapsAux (List.range' (j + 1) m) (i0 + j + 1)
          (fun v => if v = j then some (i0 + j) else last v)
      = List.replicate (m + 1) N
    rw [hlast j le_rfl (by omega)]
    show (i0 + j - (i0 + j - N)) :: gapsAux (List.range' (j + 1) m) (i0 + j + 1)
        (fun v => if v = j then some (i0 + j) else last v) = N :: List.replicate m N
    have hgap : i0 + j - (i0 + j - N) = N := by omega
    rw [hgap]
    congr 1
    exact ih (j + 1) (by omega) _ fun v hv1 hv2 => by
      rw [if_neg (by omega : ¬v = j)]
      exact hlast v (by omega) hv2

lemma lastMap_block (N i0 : ℕ) :
    ∀ (m j : ℕ), j + m = N →
      ∀ last : ℕ → Option ℕ,
        lastMap (List.range' j m) (i0 + j) last
          = fun v => if j ≤ v ∧ v < N then some (i0 + v) else last v := by
  intro m
  induction m with
  | zero =>
    intro j hj last
    funext v
    show last v = _
    rw [if_neg (by omega)]
  | succ m ih =>
    intro j hj last
    rw [show List.range' j (m + 1) = j :: List.range' (j + 1) m from rfl]
    show lastMap (List.range' (j + 1) m) (i0 + j + 1)
        (fun v => if v = j then some (i0 + j) else last v) = _
    refine (ih (j + 1) (by omega) _).trans ?_
    funext v
    by_cases h1 : j + 1 ≤ v ∧ v < N
    · rw [if_pos h1, if_pos (by omega)]
    · rw [if_neg h1]
      by_cases h2 : v = j
      · subst h2
        rw [if_pos rfl, if_pos (by omega)]
      · rw [if_neg h2, if_neg (by omega)]

lemma gapsAux_first_block (N : ℕ) :
    ∀ (m j : ℕ), j + m = N →
      ∀ last : ℕ → Option ℕ, (∀ v, j ≤ v → v < N → last v = none) →
        gapsAux (List.range' j m) j last = [] := by
  intro m
  induction m with
  | zero =>
    intro j hj last hlast
    rfl
  | succ m ih =>
    intro j hj last hlast
    rw [show List.range' j (m + 1) = j :: List.range' (j + 1) m from rfl]
    show (match last j with | some p => [j - p] | none => []) ++
        gapsAux (List.range' (j + 1) m) (j + 1) (fun v => if v = j then some j else last v)
      = []
    rw [hlast j le_rfl (by omega)]
    show gapsAux (List.range' (j + 1) m) (j + 1) (fun v => if v = j then some j else last v) = []
    exact ih (j + 1) (by omega) _ fun v hv1 hv2 => by
      rw [if_neg (by omega : ¬v = j)]
      exact hlast v (by omega) hv2

lemma lastMap_first_block (N : ℕ) :
    ∀ (m j : ℕ), j + m = N →
      ∀ last : ℕ → Option ℕ,
        lastMap (List.range' j m) j last
          = fun v => if j ≤ v ∧ v < N then some v else last v := by
  intro m
  induction m with
  | zero =>
    intro j hj last
    funext v
    show last v = _
    rw [if_neg (by omega)]
  | succ m ih =>
    intro j hj last
    rw [show List.range' j (m + 1) = j :: List.range' (j + 1) m from rfl]
    show lastMap (List.range' (j + 1) m) (j + 1)
        (fun v => if v = j then some j else last v) = _
    refine (ih (j + 1) (by omega) _).trans ?_
    funext v
    by_cases h1 : j + 1 ≤ v ∧ v < N
    · rw [if_pos h1, if_pos (by omega)]
    · rw [if_neg h1]
      by_cases h2 : v = j
      · subst h2
        rw [if_pos rfl, if_pos (by omega)]
      · rw [if_neg h2, if_neg (by omega)]

lemma gaps_periodic_blocks (N : ℕ) (hN : 1 ≤ N) :
    ∀ (m i0 : ℕ), N ≤ i0 →
      ∀ last : ℕ → Option ℕ, (∀ v, v < N → last v = some (i0 + v - N)) →
        gapsAux ((List.replicate m (List.range' 0 N)).flatten) i0 last
          = List.replicate (m * N) N := by
  intro m
  induction m with
  | zero =>
    intro i0 hi0 last hlast
    rw [Nat.zero_mul]
    rfl
  | succ m ih =>
    intro i0 hi0 last hlast
    rw [show (List.replicate (m + 1) (List.range' 0 N)).flatten
        = List.range' 0 N ++ (List.replicate m (List.range' 0 N)).flatten from by
          rw [List.replicate_succ]
          rfl]
    rw [gapsAux_append, List.length_range']
    have h1 : gapsAux (List.range' 0 N) i0 last = List.replicate N N :=
      gapsAux_block N i0 hi0 N 0 (by omega) last fun v hv0 hvN => hlast v hvN
    have h2 : lastMap (List.range' 0 N) i0 last
        = fun v => if 0 ≤ v ∧ v < N then some (i0 + v) else last v :=
      lastMap_block N i0 N 0 (by omega) last
    rw [h1, h2]
    have h3 := ih (i0 + N) (by omega)
      (fun v => if 0 ≤ v ∧ v < N then some (i0 + v) else last v)
      (fun v hv => by
        show (if 0 ≤ v ∧ v < N then some (i0 + v) else last v) = some (i0 + N + v - N)
        rw [if_pos ⟨Nat.zero_le v, hv⟩]
        exact congrArg some (by omega))
    rw [h3, ← List.replicate_add]
    congr 1
    ring

/-- C8: for every `N ≥ 1` and every sequence formed by repeating the block
`[0, 1, …, N-1]` at least twice, the gap test records a gap of exactly `N`
for every occurrence of every value after its first occurrence: the pooled
gap list is exactly `(k-1)·N` copies of `N`. -/
theorem gaps_periodicSeq (N k : ℕ) (hN : 1 ≤ N) (hk : 2 ≤ k) :
    gaps (periodicSeq N k) = List.replicate ((k - 1) * N) N := by
  obtain ⟨m, rfl⟩ : ∃ m, k = m + 1 := ⟨k - 1, by omega⟩
  unfold gaps periodicSeq
  rw [show (List.replicate (m + 1) (List.range N)).flatten
      = List.range N ++ (List.replicate m (List.range N)).flatten from by
        rw [List.replicate_succ]
        rfl]
  rw [List.range_eq_range', gapsAux_append, List.length_range']
  have h1 : gapsAux (List.range' 0 N) 0 (fun _ => none) = [] :=
    gapsAux_first_block N N 0 (by omega) _ fun _ _ _ => rfl
  have h2 : lastMap (List.range' 0 N) 0 (fun _ => none)
      = fun v => if 0 ≤ v ∧ v < N then some v else none :=
    lastMap_first_block N N 0 (by omega) _
  rw [h1, h2, List.nil_append]
  have h3 := gaps_periodic_blocks N hN m (0 + N) (by omega)
    (fun v => if 0 ≤ v ∧ v < N then some v else none)
    (fun v hv => by
      show (if 0 ≤ v ∧ v < N then some v else none) = some (0 + N + v - N)
      rw [if_pos ⟨Nat.zero_le v, hv⟩]
      exact congrArg some (by omega))
  rw [h3]
  congr 1

/-- C8 (witness): the theorem at `N = 3`, `k = 2`: the gaps of
`[0,1,2,0,1,2]` are `[3, 3, 3]`. -/
theorem gaps_periodicSeq_witness :
    (1 : ℕ) ≤ 3 ∧ (2 : ℕ) ≤ 2 ∧ gaps (periodicSeq 3 2) = List.replicate ((2 - 1) * 3) 3 :=
  ⟨by decide, by decide, gaps_periodicSeq 3 2 (by decide) (by decide)⟩

end RandTest

namespace RandTest

lemma clipTruncInt_bounds (x : ℚ) (N : ℤ) (hN : 1 ≤ N) :
    0 ≤ clipTruncInt x 0 ((N : ℚ) - 1) ∧ clipTruncInt x 0 ((N : ℚ) - 1) ≤ N - 1 := by
  have h1 : (1 : ℚ) ≤ (N : ℚ) := by exact_mod_cast hN
  unfold clipTruncInt
  constructor
  · rw [show (0 : ℤ) = ((0 : ℤ) : ℤ) from rfl, Int.le_floor]
    refine le_min (by simp) ?_
    push_cast
    linarith
  · have hy : min (max x 0) ((N : ℚ) - 1) ≤ ((N - 1 : ℤ) : ℚ) := by
      push_cast
      exact min_le_right _ _
    calc Int.floor (min (max x 0) ((N : ℚ) - 1)) ≤ Int.floor ((N - 1 : ℤ) : ℚ) :=
          Int.floor_le_floor hy
      _ = N - 1 := Int.floor_intCast _

lemma clipList_bounds (raw : ℕ → ℚ) (N : ℤ) (count : ℕ) (hN : 1 ≤ N) :
    ((List.range count).map fun i => clipTruncInt (raw i) 0 ((N : ℚ) - 1)).length = count ∧
      ∀ x ∈ (List.range count).map fun i => clipTruncInt (raw i) 0 ((N : ℚ) - 1),
        0 ≤ x ∧ x ≤ N - 1 := by
  refine ⟨by simp, ?_⟩
  intro x hx
  obtain ⟨i, _, rfl⟩ := List.mem_map.mp hx
  exact clipTruncInt_bounds (raw i) N hN

lemma emod_bounds (s N : ℤ) (hN : 1 ≤ N) : 0 ≤ s % N ∧ s % N ≤ N - 1 := by
  have h1 := Int.emod_nonneg s (show N ≠ 0 by omega)
  have h2 := Int.emod_lt_of_pos s (show 0 < N by omega)
  omega

lemma uniform_random_spec (N : ℤ) (count : ℕ) (src : RandSrc) (hN : 1 ≤ N) :
    uniform_random N (count : ℤ) src
      = .ok ((List.range count).map fun i => (src.ints i : ℤ) % N) := by
  unfold uniform_random
  rw [if_neg (by omega), if_neg (by omega)]
  norm_num

lemma normal_random_spec (N : ℤ) (count : ℕ) (raw : ℕ → ℚ) (hN : 1 ≤ N) :
    normal_random N (count : ℤ) raw
      = .ok ((List.range count).map fun i => clipTruncInt (raw i) 0 ((N : ℚ) - 1)) := by
  have h0 : (0 : ℚ) ≤ (N : ℚ) := by exact_mod_cast (show (0 : ℤ) ≤ N by omega)
  unfold normal_random
  rw [if_neg (by omega), if_neg (not_lt.mpr (by linarith))]
  norm_num

lemma exponential_random_spec (N : ℤ) (count : ℕ) (raw : ℕ → ℚ) (hN : 1 ≤ N) :
    exponential_random N (count : ℤ) raw
      = .ok ((List.range count).map fun i => clipTruncInt (raw i) 0 ((N : ℚ) - 1)) := by
  have h0 : (0 : ℚ) ≤ (N : ℚ) := by exact_mod_cast (show (0 : ℤ) ≤ N by omega)
  unfold exponential_random
  rw [if_neg (by omega), if_neg (not_lt.mpr (by linarith))]
  norm_num

lemma poisson_random_spec (N : ℤ) (count : ℕ) (raw : ℕ → ℚ) (hN : 1 ≤ N) :
    poisson_random N (count : ℤ) raw
      = .ok ((List.range count).map fun i => clipTruncInt (raw i) 0 ((N : ℚ) - 1)) := by
  have h0 : (0 : ℚ) ≤ (N : ℚ) := by exact_mod_cast (show (0 : ℤ) ≤ N by omega)
  unfold poisson_random
  rw [if_neg (by omega), if_neg (not_lt.mpr (by linarith))]
  norm_num

lemma chi_square_random_spec (N : ℤ) (count : ℕ) (raw : ℕ → ℚ) (hN : 2 ≤ N) :
    chi_square_random N (count : ℤ) raw
      = .ok ((List.range count).map fun i => clipTruncInt (raw i) 0 ((N : ℚ) - 1)) := by
  have hdf : ¬pyHalf N ≤ 0 := by
    unfold pyHalf
    rw [if_pos (by omega)]
    have h2 : 2 ≤ N.toNat := by omega
    have h1 : 1 ≤ N.toNat / 2 := by omega
    omega
  unfold chi_square_random
  rw [if_neg hdf, if_neg (by omega)]
  norm_num

end RandTest

namespace RandTest

lemma mixed_distribution_spec (N : ℤ) (src : RandSrc) (hN : 2 ≤ N)
    (hshuf : ∀ l : List ℤ, (src.shuffle l).Perm l) :
    ∃ l, mixed_distribution N src = .ok l ∧ l.length = splitSum src ∧
      ∀ x ∈ l, 0 ≤ x ∧ x ≤ N - 1 := by
  have h1 : (1 : ℤ) ≤ N := by omega
  unfold mixed_distribution
  rw [uniform_random_spec N (src.split 0) src h1,
    normal_random_spec N (src.split 1) (src.raws 1) h1,
    exponential_random_spec N (src.split 2) (src.raws 2) h1,
    poisson_random_spec N (src.split 3) (src.raws 3) h1,
    chi_square_random_spec N (src.split 4) (src.raws 4) hN]
  refine ⟨_, rfl, ?_, ?_⟩
  · rw [(hshuf _).length_eq]
    simp only [List.length_append, List.length_map, List.length_range, splitSum]
  · intro x hx
    rw [(hshuf _).mem_iff] at hx
    simp only [List.mem_append] at hx
    rcases hx with ((((hx | hx) | hx) | hx) | hx)
    · obtain ⟨i, _, rfl⟩ := List.mem_map.mp hx
      exact emod_bounds _ N h1
    · exact (clipList_bounds (src.raws 1) N (src.split 1) h1).2 x hx
    · exact (clipList_bounds (src.raws 2) N (src.split 2) h1).2 x hx
    · exact (clipList_bounds (src.raws 3) N (src.split 3) h1).2 x hx
    · exact (clipList_bounds (src.raws 4) N (src.split 4) h1).2 x hx

/-- C1 (counterexample): at `N = 1 > 0`, `count = 5 ≥ 0` the ChiSquare
variant does not return a sequence at all: the default degrees of freedom
`int(N/2) = 0` make `np.random.chisquare` raise `ValueError`. -/
theorem chi_square_errors_at_N_one :
    generate .chiSquare 1 5 zeroSrc = .error "df <= 0" ∧ ((0 : ℤ) < 1 ∧ (0 : ℤ) ≤ 5) :=
  ⟨rfl, by decide⟩

/-- C1 (amended): for every `N ≥ 1` and `count ≥ 0`, the variants
SimpleModulo, Uniform, Normal, Exponential and Poisson return exactly
`count` integers in `[0, N-1]`; ChiSquare and Mixed do so for `N ≥ 2`
(at `N = 1` their default `df = int(N/2) = 0` raises).  For Mixed the
length-`count` guarantee uses the multinomial property that the five parts
sum to `count`, and the final shuffle is a permutation. -/
theorem generate_count_and_range (d : Distribution) (N : ℤ) (count : ℕ) (src : RandSrc)
    (hN : 1 ≤ N)
    (hchi : d = .chiSquare → 2 ≤ N)
    (hmixN : d = .mixed → 2 ≤ N)
    (hsplit : d = .mixed → splitSum src = count)
    (hshuf : d = .mixed → ∀ l : List ℤ, (src.shuffle l).Perm l) :
    ∃ l, generate d N (count : ℤ) src = .ok l ∧ l.length = count ∧
      ∀ x ∈ l, 0 ≤ x ∧ x ≤ N - 1 := by
  cases d with
  | simpleModulo =>
    rw [show generate .simpleModulo N (count : ℤ) src = simple_random N (count : ℤ) src
        from rfl, simple_random_characterisation]
    rw [if_neg (by omega)]
    refine ⟨_, rfl, by norm_num, ?_⟩
    intro x hx
    obtain ⟨i, _, rfl⟩ := List.mem_map.mp hx
    exact emod_bounds _ N hN
  | uniform =>
    rw [show generate .uniform N (count : ℤ) src = uniform_random N (count : ℤ) src
        from rfl, uniform_random_spec N count src hN]
    refine ⟨_, rfl, by simp, ?_⟩
    intro x hx
    obtain ⟨i, _, rfl⟩ := List.mem_map.mp hx
    exact emod_bounds _ N hN
  | normal =>
    rw [show generate .normal N (count : ℤ) src = normal_random N (count : ℤ) (src.raws 0)
        from rfl, normal_random_spec N count (src.raws 0) hN]
    exact ⟨_, rfl, (clipList_bounds (src.raws 0) N count hN).1,
      (clipList_bounds (src.raws 0) N count hN).2⟩
  | exponential =>
    rw [show generate .exponential N (count : ℤ) src
        = exponential_random N (count : ℤ) (src.raws 0) from rfl,
      exponential_random_spec N count (src.raws 0) hN]
    exact ⟨_, rfl, (clipList_bounds (src.raws 0) N count hN).1,
      (clipList_bounds (src.raws 0) N count hN).2⟩
  | poisson =>
    rw [show generate .poisson N (count : ℤ) src = poisson_random N (count : ℤ) (src.raws 0)
        from rfl, poisson_random_spec N count (src.raws 0) hN]
    exact ⟨_, rfl, (clipList_bounds (src.raws 0) N count hN).1,
      (clipList_bounds (src.raws 0) N count hN).2⟩
  | chiSquare =>
    rw [show generate .chiSquare N (count : ℤ) src
        = chi_square_random N (count : ℤ) (src.raws 0) from rfl,
      chi_square_random_spec N count (src.raws 0) (hchi rfl)]
    exact ⟨_, rfl, (clipList_bounds (src.raws 0) N count hN).1,
      (clipList_bounds (src.raws 0) N count hN).2⟩
  | mixed =>
    obtain ⟨l, hl, hlen, hmem⟩ := mixed_distribution_spec N src (hmixN rfl) (hshuf rfl)
    exact ⟨l, hl, by rw [hlen, hsplit rfl], hmem⟩

/-- C1 (witness): the amended theorem at the Mixed variant with `N = 2`,
`count = 3`, the all-zero source (split `(2,0,0,0,1)`, identity shuffle). -/
theorem generate_count_and_range_witness :
    ∃ l, generate .mixed 2 ((3 : ℕ) : ℤ) zeroSrc = .ok l ∧ l.length = 3 ∧
      ∀ x ∈ l, 0 ≤ x ∧ x ≤ 2 - 1 :=
  generate_count_and_range .mixed 2 3 zeroSrc (by decide) (fun h => by cases h)
    (fun _ => by decide) (fun _ => by decide) (fun _ l => List.Perm.refl l)

end RandTest
